import Mathlib

/-!
Verification development for the GS_Scrape repository (gsscrape/scraper.py and
gsscrape/reporter.py).  Strings are modelled as lists of characters; the Python
string primitives used by the code (replace, split, strip, lower, upper, title)
are embedded as executable Lean functions with the same semantics on the
character level.
-/

namespace GS

/-- Boolean test: `pat` is a prefix of `s`. -/
def isPrefB : List Char → List Char → Bool
  | [], _ => true
  | _ :: _, [] => false
  | a :: as, b :: bs => (a == b) && isPrefB as bs

/-- Boolean test: `pat` occurs as a contiguous substring of `s`
(Python `pat in s`). -/
def occursB (pat : List Char) : List Char → Bool
  | [] => isPrefB pat []
  | c :: cs => isPrefB pat (c :: cs) || occursB pat cs

/-- Worker for `pyReplace`, structurally recursive on a fuel argument; every
step consumes at least one character, so fuel `s.length` is always enough. -/
def pyReplaceF (pat rep : List Char) : Nat → List Char → List Char
  | _, [] => if pat = [] then rep else []
  | 0, c :: cs => c :: cs
  | fuel + 1, c :: cs =>
    if pat ≠ [] ∧ isPrefB pat (c :: cs) = true then
      rep ++ pyReplaceF pat rep fuel (List.drop pat.length (c :: cs))
    else if pat = [] then
      rep ++ c :: pyReplaceF pat rep fuel cs
    else
      c :: pyReplaceF pat rep fuel cs

/-- Python `s.replace(pat, rep)`: replace every non-overlapping occurrence of
`pat` in `s` by `rep`, scanning left to right.  The empty-pattern case follows
Python, which inserts `rep` before every character and at the end. -/
def pyReplace (pat rep : List Char) (s : List Char) : List Char :=
  pyReplaceF pat rep s.length s

/-- Worker for `pySplit`, structurally recursive on a fuel argument; every
step consumes at least one character, so fuel `s.length` is always enough. -/
def pySplitF (pat : List Char) : Nat → List Char → List (List Char)
  | _, [] => [[]]
  | 0, c :: cs => [c :: cs]
  | fuel + 1, c :: cs =>
    if pat ≠ [] ∧ isPrefB pat (c :: cs) = true then
      [] :: pySplitF pat fuel (List.drop pat.length (c :: cs))
    else
      match pySplitF pat fuel cs with
      | [] => [[c]]
      | f :: rest => (c :: f) :: rest

/-- Python `s.split(pat)` for a non-empty separator `pat`: the list of maximal
segments of `s` between non-overlapping occurrences of `pat`, scanned left to
right.  Always returns a non-empty list. -/
def pySplit (pat : List Char) (s : List Char) : List (List Char) :=
  pySplitF pat s.length s

/-- The suffix of `s` strictly after the first occurrence of `pat`
(the reading of the phrase, in the specification, of the text after the
marker); `none` when `pat` does not occur. -/
def afterFirst (pat : List Char) : List Char → Option (List Char)
  | [] => none
  | c :: cs =>
    if isPrefB pat (c :: cs) then some (List.drop pat.length (c :: cs))
    else afterFirst pat cs

/-- `sep.join(pieces)` in Python. -/
def joinWith (sep : List Char) : List (List Char) → List Char
  | [] => []
  | [x] => x
  | x :: y :: rest => x ++ sep ++ joinWith sep (y :: rest)

/-- Python `s.lower()` (ASCII case mapping, which is all the code relies on). -/
def pyLower (s : List Char) : List Char := s.map Char.toLower

/-- Python `s.upper()` (ASCII case mapping). -/
def pyUpper (s : List Char) : List Char := s.map Char.toUpper

/-- Python `s.strip()`: remove leading and trailing whitespace. -/
def pyStrip (s : List Char) : List Char :=
  ((s.dropWhile Char.isWhitespace).reverse.dropWhile Char.isWhitespace).reverse

/-- Helper for `pyTitle`; the flag records whether the previous character was
alphabetic. -/
def pyTitleAux : Bool → List Char → List Char
  | _, [] => []
  | prevAlpha, c :: cs =>
    if c.isAlpha then
      (if prevAlpha then c.toLower else c.toUpper) :: pyTitleAux true cs
    else
      c :: pyTitleAux false cs

/-- Python `s.title()`: uppercase every letter that follows a non-letter,
lowercase every letter that follows a letter. -/
def pyTitle (s : List Char) : List Char := pyTitleAux false s

/-- Decimal rendering of a natural number, as a character list. -/
def natLC (n : Nat) : List Char := (Nat.repr n).data

/-! ## The name normalizer (scraper.py, lines 106-157) -/

/-- `unify_pseudonyms` from scraper.py: fold of Python `str.replace` over the
pseudonym list, in order. -/
def unify_pseudonyms (input_string : List Char) (pseudonyms : List (List Char))
    (name : List Char) : List Char :=
  pseudonyms.foldl (fun acc p => pyReplace p name acc) input_string

/-- The body of the per-name loop of `format_names` in scraper.py. -/
def formatOneName (nm : List Char) : List Char :=
  let parts := pySplit [' '] nm
  let surname := joinWith [' '] (parts.drop 1)
  let initials0 := parts.headD []
  let initials1 := if 3 ≤ initials0.length then initials0.take 1 else initials0
  let initials2 := pyUpper initials1
  let initials3 := joinWith ['.'] (initials2.map (fun c => [c])) ++ ['.']
  joinWith [' '] [initials3, surname]

/-- `format_names` from scraper.py: split on `", "`, format each name, re-join
with `", "`. -/
def format_names (s : List Char) : List Char :=
  joinWith [',', ' '] ((pySplit [',', ' '] s).map formatOneName)

/-! ## Per-record processing in the crawler (scraper.py, lines 260-278) -/

/-- Line 271 of scraper.py: a record is a preprint exactly when the lowercased
venue text contains the substring `arxiv`. -/
def classifyPreprint (journalTitle : List Char) : Bool :=
  occursB "arxiv".data (pyLower journalTitle)

/-- Line 274 of scraper.py: the venue of a preprint is rewritten to the
literal `arXiv`; other venues are kept. -/
def rewriteJournal (journalTitle : List Char) : List Char :=
  if classifyPreprint journalTitle then "arXiv".data else journalTitle

/-- Lines 270-274 of scraper.py: for a preprint, the reference becomes
`"arXiv: "` followed by element 1 of the split of the reference on `"arXiv:"`;
indexing a one-element split raises in Python, modelled as `none`. -/
def adjustRecord (reference journalTitle : List Char) :
    Option (List Char × List Char) :=
  if classifyPreprint journalTitle then
    match (pySplit "arXiv:".data reference).get? 1 with
    | some t => some ("arXiv: ".data ++ t, "arXiv".data)
    | none => none
  else some (reference, journalTitle)

/-- Lines 262-264 of scraper.py: the call to `unify_pseudonyms` on line 263
discards its result (Python strings are immutable and the return value is not
assigned), so the stored author string is the formatting of the original
string. -/
def storedAuthors (authors : List Char) (pseudonyms : List (List Char))
    (name : List Char) : List Char :=
  let _unused := unify_pseudonyms authors pseudonyms name
  format_names authors

/-! ## The reporter (reporter.py) -/

/-- A publication record, with the fields that `generate_latex_report`
reads. -/
structure Record where
  title : List Char
  authors : List Char
  reference : List Char
  journal : List Char
  year : Nat
  citations : Nat
  url : List Char
  isarxiv : Bool

/-- The per-journal tally kept in `journal_counts`. -/
structure JC where
  count : Nat
  firstA : Nat
  lastA : Nat
deriving DecidableEq

/-- The mutable state of the statistics loop of `generate_latex_report`. -/
structure RState where
  peer : Nat
  firstA : Nat
  lastA : Nat
  totalCit : Nat
  cits : List Nat
  jcs : List (List Char × JC)

/-- `authors.split(',')` with each entry stripped (line 97 of reporter.py). -/
def authorEntries (authors : List Char) : List (List Char) :=
  (pySplit [','] authors).map pyStrip

/-- The first comma-separated author entry. -/
def firstEntry (authors : List Char) : List Char :=
  (authorEntries authors).headD []

/-- The last comma-separated author entry. -/
def lastEntry (authors : List Char) : List Char :=
  ((authorEntries authors).getLast?).getD []

def lookupJC (k : List Char) : List (List Char × JC) → Option JC
  | [] => none
  | (k', v) :: rest => if k' = k then some v else lookupJC k rest

def updateJC (k : List Char) (f : JC → JC) : List (List Char × JC) → List (List Char × JC)
  | [] => []
  | (k', v) :: rest =>
    if k' = k then (k', f v) :: rest else (k', v) :: updateJC k f rest

def hasKey (k : List Char) (jcs : List (List Char × JC)) : Bool :=
  (lookupJC k jcs).isSome

/-- One iteration of the peer-reviewed loop of `generate_latex_report`
(lines 82-124 of reporter.py), restricted to the statistics state. -/
def stepRecord (name : List Char) (st : RState) (r : Record) : RState :=
  let jl := pyLower r.journal
  let isF := decide (firstEntry r.authors = name)
  let isL := decide (lastEntry r.authors = name)
  let jcs1 :=
    if isF && hasKey jl st.jcs then
      updateJC jl (fun jc => ⟨jc.count, jc.firstA + 1, jc.lastA⟩) st.jcs
    else st.jcs
  let jcs2 :=
    if isL && hasKey jl jcs1 then
      updateJC jl (fun jc => ⟨jc.count, jc.firstA, jc.lastA + 1⟩) jcs1
    else jcs1
  let jcs3 :=
    if hasKey jl jcs2 then
      updateJC jl (fun jc => ⟨jc.count + 1, jc.firstA, jc.lastA⟩) jcs2
    else jcs2
  ⟨st.peer + 1,
   st.firstA + (if isF then 1 else 0),
   st.lastA + (if isL then 1 else 0),
   st.totalCit + r.citations,
   st.cits ++ [r.citations],
   jcs3⟩

/-- The initial counters and the journal tally dictionary
(lines 68-79 of reporter.py). -/
def initState (journals : List (List Char)) : RState :=
  ⟨0, 0, 0, 0, [], journals.map (fun j => (pyLower j, ⟨0, 0, 0⟩))⟩

/-- The statistics loop: a fold of `stepRecord` over the non-preprint records
in order. -/
def runStats (name : List Char) (journals : List (List Char))
    (rs : List Record) : RState :=
  (rs.filter (fun r => !r.isarxiv)).foldl (stepRecord name) (initState journals)

/-- The h-index loop of reporter.py (lines 131-136): the accumulator is both
the running h-index and the index of the element under examination. -/
def hLoop : List Nat → Nat → Nat
  | [], h => h
  | c :: cs, h => if h + 1 ≤ c then hLoop cs (h + 1) else h

/-- Descending insertion of one element. -/
def insertDesc (x : Nat) : List Nat → List Nat
  | [] => [x]
  | y :: ys => if y ≤ x then x :: y :: ys else y :: insertDesc x ys

/-- `sorted(l, reverse=True)` (line 130 of reporter.py): the descending
sorted permutation, which is unique for natural numbers. -/
def sortDesc : List Nat → List Nat
  | [] => []
  | x :: xs => insertDesc x (sortDesc xs)

/-- The h-index computed by reporter.py from a citation-count list. -/
def hIndex (cits : List Nat) : Nat := hLoop (sortDesc cits) 0

/-- The tracked-venue phrase for one journal (lines 149-158 of reporter.py). -/
def phrase (journal : List Char) (jc : JC) : List Char :=
  let base := natLC jc.count ++ " ".data ++ journal
  if 0 < jc.firstA ∧ 0 < jc.lastA then
    base ++ " (".data ++ natLC jc.firstA ++ " first author, ".data
      ++ natLC jc.lastA ++ " last author)".data
  else if 0 < jc.firstA then
    base ++ " (".data ++ natLC jc.firstA ++ " first author)".data
  else if 0 < jc.lastA then
    base ++ " (".data ++ natLC jc.lastA ++ " last author)".data
  else base

/-- The journal report list (lines 145-159 of reporter.py): one phrase per
tracked journal with a nonzero count, in the order of `journals_to_count`. -/
def journalReport (journals : List (List Char))
    (jcs : List (List Char × JC)) : List (List Char) :=
  journals.foldl
    (fun acc j =>
      let jc := (lookupJC (pyLower j) jcs).getD ⟨0, 0, 0⟩
      if 0 < jc.count then acc ++ [phrase j jc] else acc)
    []

/-- The statistics paragraph (lines 140-166 of reporter.py), with the
generation date passed in as text. -/
def statisticsText (peer firstA lastA : Nat) (jreport : List (List Char))
    (h totalCit : Nat) (date : List Char) : List Char :=
  "\n".data ++ natLC peer ++ " peer-reviewed publications, ".data
    ++ natLC firstA ++ " papers as first author, ".data
    ++ natLC lastA ++ " papers as last author.\n".data
    ++ (if jreport = [] then []
        else "These include ".data ++ joinWith ", ".data jreport ++ ".\n".data)
    ++ "\\textbf\x7bh-index: ".data ++ natLC h ++ ". Citations: ".data
    ++ natLC totalCit ++ "\x7d (Google Scholar, as of ".data ++ date ++ ").".data

/-- The full statistics paragraph computed from the record table. -/
def renderStatistics (name : List Char) (journals : List (List Char))
    (rs : List Record) (date : List Char) : List Char :=
  let st := runStats name journals rs
  statisticsText st.peer st.firstA st.lastA (journalReport journals st.jcs)
    (hIndex st.cits) st.totalCit date

/-- `\textbf{name}` (line 117 of reporter.py). -/
def boldName (name : List Char) : List Char :=
  "\\textbf\x7b".data ++ name ++ "\x7d".data

/-- The common LaTeX item template of both enumerate lists
(lines 120-124 and 184-188 of reporter.py). -/
def renderItem (title authorsB reference : List Char) (year : Nat)
    (url : List Char) : List Char :=
  " \\item \\emph\x7b".data ++ title ++ "\x7d.\\\\ \n".data
    ++ "\x7b".data ++ authorsB ++ "\x7d\\\\ \n".data
    ++ "  \\href\x7b".data ++ url ++ "\x7d\x7b\x7b".data ++ reference
    ++ " (".data ++ natLC year ++ ")\x7d\x7d\n\n".data

/-- One item of the peer-reviewed list: the reference is passed through
Python `str.title()` (line 85 of reporter.py). -/
def peerItem (name : List Char) (r : Record) : List Char :=
  renderItem r.title (pyReplace name (boldName name) r.authors)
    (pyTitle r.reference) r.year r.url

/-- One item of the preprint list: the reference is used verbatim
(line 176 of reporter.py). -/
def preprintItem (name : List Char) (r : Record) : List Char :=
  renderItem r.title (pyReplace name (boldName name) r.authors)
    r.reference r.year r.url

/-- The default tracked-venue list of `generate_latex_report`. -/
def defaultJournals : List (List Char) :=
  ["Nature Photonics".data, "Nature Communications".data,
   "Nature Materials".data, "Science Advances".data,
   "Physical Review Letters".data, "PRX".data, "PRX Quantum".data]

/-! ## Specification-side reformulations -/

/-- The per-name formatting rule as the specification words it: the first
whitespace-delimited token is the initials source (first letter only when the
token has three or more characters); the initials are uppercased, a period is
inserted after every character, and the result is joined with the remaining
tokens (the surname) by a space. -/
def specFormatName (nm : List Char) : List Char :=
  let tokens := pySplit [' '] nm
  let tok := tokens.headD []
  let ini := if 3 ≤ tok.length then tok.take 1 else tok
  let dotted := (pyUpper ini).foldr (fun c acc => c :: '.' :: acc) []
  dotted ++ ' ' :: joinWith [' '] (tokens.drop 1)

/-! ## The synthetic end-to-end scenario of the specification -/

def scenarioName : List Char := "A. Smith".data

/-- Three synthetic non-preprint records with citations 5, 3, 1, the first of
them first-authored by the canonical name, all from the tracked venue
Nature Photonics. -/
def scenarioRecords : List Record :=
  [⟨"T1".data, "A. Smith, B. Jones".data, "Nat. Photon. 1".data,
    "Nature Photonics".data, 2024, 5, "u1".data, false⟩,
   ⟨"T2".data, "B. Jones, C. Doe".data, "Nat. Photon. 2".data,
    "Nature Photonics".data, 2023, 3, "u2".data, false⟩,
   ⟨"T3".data, "B. Jones, C. Doe".data, "Nat. Photon. 3".data,
    "Nature Photonics".data, 2022, 1, "u3".data, false⟩]

/-- The statistics paragraph rendered for the scenario. -/
def scenarioStats : List Char :=
  renderStatistics scenarioName defaultJournals scenarioRecords
    "January 1, 2025".data


/-! ## Lemmas about the string primitives -/


theorem isPrefB_iff (pat : List Char) :
    ∀ s : List Char, isPrefB pat s = true ↔ ∃ t, s = pat ++ t := by
  induction pat with
  | nil =>
    intro s
    cases s <;> simp [isPrefB]
  | cons a as ih =>
    intro s
    cases s with
    | nil => simp [isPrefB]
    | cons b bs =>
      simp only [isPrefB, Bool.and_eq_true, beq_iff_eq]
      constructor
      · rintro ⟨hab, h⟩
        subst hab
        obtain ⟨t, ht⟩ := (ih bs).mp h
        exact ⟨t, by simp [ht]⟩
      · rintro ⟨t, ht⟩
        simp only [List.cons_append, List.cons.injEq] at ht
        obtain ⟨hab, hbs⟩ := ht
        exact ⟨hab.symm, (ih bs).mpr ⟨t, hbs⟩⟩

theorem occursB_iff (pat : List Char) :
    ∀ s : List Char, occursB pat s = true ↔ ∃ l r, s = l ++ pat ++ r := by
  intro s
  induction s with
  | nil =>
    simp only [occursB, isPrefB_iff]
    constructor
    · rintro ⟨t, ht⟩
      exact ⟨[], t, by simpa using ht⟩
    · rintro ⟨l, r, h⟩
      refine ⟨r, ?_⟩
      have hl : l = [] := by
        cases l with
        | nil => rfl
        | cons x xs => simp at h
      subst hl
      simpa using h
  | cons c cs ih =>
    simp only [occursB, Bool.or_eq_true, isPrefB_iff, ih]
    constructor
    · rintro (⟨t, ht⟩ | ⟨l, r, hr⟩)
      · exact ⟨[], t, by simpa using ht⟩
      · exact ⟨c :: l, r, by simp [hr]⟩
    · rintro ⟨l, r, h⟩
      cases l with
      | nil =>
        left
        exact ⟨r, by simpa using h⟩
      | cons x xs =>
        right
        simp only [List.cons_append, List.cons.injEq] at h
        exact ⟨xs, r, h.2⟩

theorem isPrefB_self_append (pat t : List Char) : isPrefB pat (pat ++ t) = true :=
  (isPrefB_iff pat (pat ++ t)).mpr ⟨t, rfl⟩

theorem isPrefB_drop (pat s : List Char) (h : isPrefB pat s = true) :
    s = pat ++ List.drop pat.length s := by
  obtain ⟨t, rfl⟩ := (isPrefB_iff pat s).mp h
  simp

theorem occursB_nil_of_ne (pat : List Char) (hp : pat ≠ []) :
    occursB pat [] = false := by
  cases pat with
  | nil => exact absurd rfl hp
  | cons a as => simp [occursB, isPrefB]

/-- A string with no occurrence of the pattern is left unchanged by
`pyReplace` (absent aliases are no-ops). -/
theorem pyReplaceF_no_occurrence (pat rep : List Char) :
    ∀ (fuel : Nat) (s : List Char), occursB pat s = false →
      pyReplaceF pat rep fuel s = s := by
  intro fuel
  induction fuel with
  | zero =>
    intro s h
    cases s with
    | nil =>
      have hp : pat ≠ [] := by
        intro hp
        subst hp
        simp [occursB, isPrefB] at h
      simp [pyReplaceF, hp]
    | cons c cs => rfl
  | succ fuel ih =>
    intro s h
    cases s with
    | nil =>
      have hp : pat ≠ [] := by
        intro hp
        subst hp
        simp [occursB, isPrefB] at h
      simp [pyReplaceF, hp]
    | cons c cs =>
      simp only [occursB, Bool.or_eq_false_iff] at h
      have hp : pat ≠ [] := by
        intro hp
        subst hp
        simp [isPrefB] at h
      rw [pyReplaceF]
      rw [if_neg (by simp [h.1])]
      rw [if_neg hp]
      rw [ih cs h.2]

theorem pyReplace_no_occurrence (pat rep : List Char) (s : List Char)
    (h : occursB pat s = false) : pyReplace pat rep s = s :=
  pyReplaceF_no_occurrence pat rep s.length s h

theorem pySplitF_nil (pat : List Char) (fuel : Nat) :
    pySplitF pat fuel [] = [[]] := by
  cases fuel <;> rfl

theorem pySplitF_cons_pos (pat : List Char) (c : Char) (cs : List Char)
    (fuel : Nat) (hp : pat ≠ []) (h : isPrefB pat (c :: cs) = true) :
    pySplitF pat (fuel + 1) (c :: cs)
      = [] :: pySplitF pat fuel (List.drop pat.length (c :: cs)) := by
  rw [pySplitF]
  rw [if_pos ⟨hp, h⟩]

theorem pySplitF_cons_neg (pat : List Char) (c : Char) (cs : List Char)
    (fuel : Nat) (f : List Char) (rest : List (List Char))
    (h : isPrefB pat (c :: cs) = false) (hcs : pySplitF pat fuel cs = f :: rest) :
    pySplitF pat (fuel + 1) (c :: cs) = (c :: f) :: rest := by
  rw [pySplitF]
  rw [if_neg (by simp [h])]
  rw [hcs]

theorem pySplitF_ne_nil (pat : List Char) :
    ∀ (fuel : Nat) (s : List Char), pySplitF pat fuel s ≠ [] := by
  intro fuel s
  match fuel, s with
  | 0, [] => simp [pySplitF]
  | fuel + 1, [] => simp [pySplitF]
  | 0, c :: cs => simp [pySplitF]
  | fuel + 1, c :: cs =>
    rw [pySplitF]
    split
    · simp
    · split <;> simp

/-- Combined structural facts about `pySplit` for a non-empty separator:
the split has at least two fields exactly when the separator occurs, joining
the fields with the separator recovers the string, and the tail of the split
joined with the separator is the suffix after the first occurrence. -/
theorem pySplitF_main (pat : List Char) (hp : pat ≠ []) :
    ∀ (fuel : Nat) (s : List Char), s.length ≤ fuel →
      (2 ≤ (pySplitF pat fuel s).length ↔ occursB pat s = true)
      ∧ joinWith pat (pySplitF pat fuel s) = s
      ∧ (∀ f rest, pySplitF pat fuel s = f :: rest →
          (rest = [] → afterFirst pat s = none)
          ∧ (rest ≠ [] → afterFirst pat s = some (joinWith pat rest))) := by
  intro fuel
  induction fuel with
  | zero =>
    intro s hs
    have hnil : s = [] := List.eq_nil_of_length_eq_zero (Nat.le_zero.mp hs)
    subst hnil
    refine ⟨?_, ?_, ?_⟩
    · rw [pySplitF_nil, occursB_nil_of_ne pat hp]
      simp
    · rw [pySplitF_nil]
      rfl
    · intro f rest hfr
      rw [pySplitF_nil] at hfr
      cases hfr
      exact ⟨fun _ => rfl, fun hr => absurd rfl hr⟩
  | succ fuel ih =>
    intro s hs
    cases s with
    | nil =>
      refine ⟨?_, ?_, ?_⟩
      · rw [pySplitF_nil, occursB_nil_of_ne pat hp]
        simp
      · rw [pySplitF_nil]
        rfl
      · intro f rest hfr
        rw [pySplitF_nil] at hfr
        cases hfr
        exact ⟨fun _ => rfl, fun hr => absurd rfl hr⟩
    | cons c cs =>
      by_cases hpre : isPrefB pat (c :: cs) = true
      · -- the separator matches at the head: one field ends here
        have hplen : 0 < pat.length := List.length_pos.mpr hp
        have hdrop : (List.drop pat.length (c :: cs)).length ≤ fuel := by
          simp only [List.length_drop, List.length_cons]
          simp only [List.length_cons] at hs
          omega
        obtain ⟨ih1, ih2, ih3⟩ := ih (List.drop pat.length (c :: cs)) hdrop
        have hsplit := pySplitF_cons_pos pat c cs fuel hp hpre
        obtain ⟨f', rest', hfr'⟩ :
            ∃ f' rest', pySplitF pat fuel (List.drop pat.length (c :: cs)) = f' :: rest' := by
          cases hx : pySplitF pat fuel (List.drop pat.length (c :: cs)) with
          | nil => exact absurd hx (pySplitF_ne_nil pat fuel _)
          | cons a b => exact ⟨a, b, rfl⟩
        have hjoin' : joinWith pat (f' :: rest') = List.drop pat.length (c :: cs) := by
          rw [← hfr']
          exact ih2
        have hdecomp : c :: cs = pat ++ List.drop pat.length (c :: cs) :=
          isPrefB_drop pat (c :: cs) hpre
        refine ⟨?_, ?_, ?_⟩
        · rw [hsplit, hfr']
          simp only [List.length_cons, occursB, hpre, Bool.true_or]
          constructor
          · intro _; trivial
          · intro _; omega
        · rw [hsplit, hfr']
          show joinWith pat ([] :: f' :: rest') = c :: cs
          have : joinWith pat ([] :: f' :: rest') =
              [] ++ pat ++ joinWith pat (f' :: rest') := rfl
          rw [this, hjoin']
          simpa using hdecomp.symm
        · intro f rest hfr
          rw [hsplit, hfr'] at hfr
          cases hfr
          refine ⟨fun hr => absurd hr (by simp), fun _ => ?_⟩
          show afterFirst pat (c :: cs) = some (joinWith pat (f' :: rest'))
          rw [hjoin']
          simp [afterFirst, hpre]
      · -- no match at the head: the head character joins the first field
        have hcs : cs.length ≤ fuel := by
          simp only [List.length_cons] at hs
          omega
        obtain ⟨ih1, ih2, ih3⟩ := ih cs hcs
        obtain ⟨f₀, rest₀, hfr₀⟩ : ∃ f₀ rest₀, pySplitF pat fuel cs = f₀ :: rest₀ := by
          cases hx : pySplitF pat fuel cs with
          | nil => exact absurd hx (pySplitF_ne_nil pat fuel cs)
          | cons a b => exact ⟨a, b, rfl⟩
        have hpre' : isPrefB pat (c :: cs) = false := by
          simpa using hpre
        have hsplit := pySplitF_cons_neg pat c cs fuel f₀ rest₀ hpre' hfr₀
        refine ⟨?_, ?_, ?_⟩
        · rw [hsplit]
          simp only [List.length_cons, occursB, hpre', Bool.false_or]
          rw [hfr₀] at ih1
          simp only [List.length_cons] at ih1
          constructor
          · intro h2; exact ih1.mp (by omega)
          · intro ho; have := ih1.mpr ho; omega
        · rw [hsplit]
          cases rest₀ with
          | nil =>
            show joinWith pat [c :: f₀] = c :: cs
            have hf : joinWith pat [f₀] = cs := by rw [← hfr₀]; exact ih2
            show c :: f₀ = c :: cs
            have : f₀ = cs := hf
            rw [this]
          | cons r1 rr =>
            show joinWith pat ((c :: f₀) :: r1 :: rr) = c :: cs
            have hf : joinWith pat (f₀ :: r1 :: rr) = cs := by rw [← hfr₀]; exact ih2
            show (c :: f₀) ++ pat ++ joinWith pat (r1 :: rr) = c :: cs
            have : f₀ ++ pat ++ joinWith pat (r1 :: rr) = cs := hf
            simp only [List.cons_append]
            rw [this]
        · intro f rest hfr
          rw [hsplit] at hfr
          cases hfr
          have hAf : afterFirst pat (c :: cs) = afterFirst pat cs := by
            simp [afterFirst, hpre']
          obtain ⟨h1, h2⟩ := ih3 f₀ rest₀ hfr₀
          exact ⟨fun hr => by rw [hAf]; exact h1 hr, fun hr => by rw [hAf]; exact h2 hr⟩

theorem pySplit_length_iff (pat : List Char) (hp : pat ≠ []) (s : List Char) :
    2 ≤ (pySplit pat s).length ↔ occursB pat s = true :=
  (pySplitF_main pat hp s.length s le_rfl).1

theorem joinWith_pySplit (pat : List Char) (hp : pat ≠ []) (s : List Char) :
    joinWith pat (pySplit pat s) = s :=
  (pySplitF_main pat hp s.length s le_rfl).2.1

theorem afterFirst_pySplit (pat : List Char) (hp : pat ≠ []) (s : List Char)
    (f : List Char) (rest : List (List Char)) (hfr : pySplit pat s = f :: rest)
    (hr : rest ≠ []) : afterFirst pat s = some (joinWith pat rest) :=
  ((pySplitF_main pat hp s.length s le_rfl).2.2 f rest hfr).2 hr

/-! ## Lemmas about the name formatter -/

theorem joinWith_cons_cons (sep x y : List Char) (rest : List (List Char)) :
    joinWith sep (x :: y :: rest) = x ++ sep ++ joinWith sep (y :: rest) := rfl

theorem joinWith_pair (sep x y : List Char) :
    joinWith sep [x, y] = x ++ sep ++ y := rfl

/-- Joining the singleton characters of a non-empty string with periods and
appending a final period is the same as inserting a period after every
character. -/
theorem dotted_eq (l : List Char) (hl : l ≠ []) :
    joinWith ['.'] (l.map fun c => [c]) ++ ['.'] =
      l.foldr (fun c acc => c :: '.' :: acc) [] := by
  induction l with
  | nil => exact absurd rfl hl
  | cons c rest ih =>
    cases rest with
    | nil => rfl
    | cons d rr =>
      have ihr := ih (by simp)
      simp only [List.map_cons] at ihr ⊢
      rw [joinWith_cons_cons]
      simp only [List.foldr_cons] at ihr ⊢
      rw [← ihr]
      simp

/-- On any name whose first space-delimited token is non-empty, the code's
per-name formatting agrees with the specification's description of it. -/
theorem formatOne_eq_spec (nm : List Char)
    (h : (pySplit [' '] nm).headD [] ≠ []) :
    formatOneName nm = specFormatName nm := by
  unfold formatOneName specFormatName
  have hini : (if 3 ≤ ((pySplit [' '] nm).headD []).length
      then ((pySplit [' '] nm).headD []).take 1
      else (pySplit [' '] nm).headD []) ≠ [] := by
    split
    · cases hx : (pySplit [' '] nm).headD [] with
      | nil => exact absurd hx h
      | cons a as => simp
    · exact h
  have hup : pyUpper (if 3 ≤ ((pySplit [' '] nm).headD []).length
      then ((pySplit [' '] nm).headD []).take 1
      else (pySplit [' '] nm).headD []) ≠ [] := by
    simpa [pyUpper] using hini
  rw [joinWith_pair]
  rw [dotted_eq _ hup]
  simp

/-- Claim C5: `format_names` splits on `", "`, formats each name (first token
as initials, reduced to its first letter when it has three or more characters,
uppercased, a period after every character, joined with the surname), and
preserves the order and count of the names; `"AB Smith"` maps to
`"A.B. Smith"` and `"John Smith"` to `"J. Smith"`. -/
theorem format_names_spec :
    (∀ nm : List Char, (pySplit [' '] nm).headD [] ≠ [] →
        formatOneName nm = specFormatName nm)
    ∧ format_names "AB Smith".data = "A.B. Smith".data
    ∧ format_names "John Smith".data = "J. Smith".data
    ∧ (∀ s : List Char,
        format_names s
          = joinWith [',', ' '] ((pySplit [',', ' '] s).map formatOneName))
    ∧ format_names "AB Smith, John Smith".data = "A.B. Smith, J. Smith".data :=
  ⟨formatOne_eq_spec, by decide, by decide, fun s => rfl, by decide⟩

/-- Witness for C5 at the concrete name `"AB Smith"`. -/
theorem format_names_spec_witness :
    formatOneName "AB Smith".data = specFormatName "AB Smith".data :=
  format_names_spec.1 "AB Smith".data (by decide)

/-- Claim C8: `unify_pseudonyms` applies the literal replacements in list
order (each later replacement operating on the result of the earlier ones), an
alias that does not occur leaves the string unchanged, and the concrete
example of the specification holds. -/
theorem unify_pseudonyms_spec :
    (∀ (s name p : List Char) (ps : List (List Char)),
        unify_pseudonyms s (p :: ps) name
          = unify_pseudonyms (pyReplace p name s) ps name)
    ∧ (∀ (s p name : List Char), occursB p s = false → pyReplace p name s = s)
    ∧ unify_pseudonyms "CS Munoz did X".data ["CS Munoz".data]
        "C. Sánchez Muñoz".data = "C. Sánchez Muñoz did X".data :=
  ⟨fun _ _ _ _ => rfl,
   fun s p name h => pyReplace_no_occurrence p name s h,
   by decide⟩

/-- Witness for C8: an absent alias is a no-op on a concrete string. -/
theorem unify_pseudonyms_spec_witness :
    pyReplace "zz".data "X".data "abc".data = "abc".data :=
  unify_pseudonyms_spec.2.1 "abc".data "zz".data "X".data (by decide)

/-- Claim C1 (code bug): line 263 of scraper.py discards the result of
`unify_pseudonyms`, so the stored author string is always
`format_names` of the raw string, and on a raw string containing a pseudonym
this differs from the intended
`format_names (unify_pseudonyms raw pseudonyms name)`. -/
theorem stored_authors_skip_unification :
    (∀ (a name : List Char) (ps : List (List Char)),
        storedAuthors a ps name = format_names a)
    ∧ storedAuthors "Cs Munoz".data ["Cs Munoz".data] "C. Sánchez Muñoz".data
        ≠ format_names (unify_pseudonyms "Cs Munoz".data ["Cs Munoz".data]
            "C. Sánchez Muñoz".data) :=
  ⟨fun _ _ _ => rfl, by decide⟩

/-- Claim C9: re-running the preprint classification on the (possibly
rewritten) venue field gives the same answer; in particular the rewritten
venue `"arXiv"` is still classified as a preprint. -/
theorem classification_idempotent :
    (∀ jt : List Char,
        classifyPreprint (rewriteJournal jt) = classifyPreprint jt)
    ∧ classifyPreprint "arXiv".data = true := by
  refine ⟨?_, by decide⟩
  intro jt
  by_cases h : classifyPreprint jt = true
  · rw [rewriteJournal, if_pos h, h]
    decide
  · rw [rewriteJournal, if_neg h]

/-! ## Preprint classification and the reference rewrite -/

/-- Claim C4 counterexample: with venue `"Arxiv"` and original reference
`"arXiv:1arXiv:2"` (two occurrences of `"arXiv:"`), the code rewrites the
reference to `"arXiv: 1"`, not to `"arXiv: "` followed by `"1arXiv:2"`, the
substring of the original reference after `"arXiv:"`. -/
theorem preprint_rewrite_counterexample :
    classifyPreprint "Arxiv".data = true
    ∧ afterFirst "arXiv:".data "arXiv:1arXiv:2".data = some "1arXiv:2".data
    ∧ adjustRecord "arXiv:1arXiv:2".data "Arxiv".data
        = some ("arXiv: 1".data, "arXiv".data)
    ∧ adjustRecord "arXiv:1arXiv:2".data "Arxiv".data
        ≠ some ("arXiv: ".data ++ "1arXiv:2".data, "arXiv".data) := by decide

/-- Claim C4 (amended): a record is a preprint iff its venue text contains
`"arxiv"` case-insensitively; for preprints the venue is rewritten to the
literal `"arXiv"` and the reference to `"arXiv: "` followed by the second
field of splitting the original reference on `"arXiv:"` (the text between the
first and the second occurrence); when `"arXiv:"` occurs exactly once this is
exactly the substring after `"arXiv:"`. -/
theorem preprint_classification_and_rewrite (jt ref : List Char) :
    (classifyPreprint jt = true ↔ ∃ l r, pyLower jt = l ++ "arxiv".data ++ r)
    ∧ (classifyPreprint jt = true → rewriteJournal jt = "arXiv".data)
    ∧ (classifyPreprint jt = true → occursB "arXiv:".data ref = true →
        adjustRecord ref jt
          = some ("arXiv: ".data ++ (pySplit "arXiv:".data ref).getD 1 [],
              "arXiv".data))
    ∧ (classifyPreprint jt = true → ∀ f0 f1,
        pySplit "arXiv:".data ref = [f0, f1] →
          adjustRecord ref jt
            = some ("arXiv: ".data ++ (afterFirst "arXiv:".data ref).getD [],
                "arXiv".data)) := by
  refine ⟨?_, ?_, ?_, ?_⟩
  · exact occursB_iff "arxiv".data (pyLower jt)
  · intro hc
    rw [rewriteJournal, if_pos hc]
  · intro hc ho
    rw [adjustRecord, if_pos hc]
    have h1 : 1 < (pySplit "arXiv:".data ref).length :=
      (pySplit_length_iff "arXiv:".data (by decide) ref).mpr ho
    rw [List.get?_eq_getElem?, List.getElem?_eq_getElem h1]
    rw [List.getD_eq_getElem _ [] h1]
  · intro hc f0 f1 hsp
    rw [adjustRecord, if_pos hc, hsp]
    have haf : afterFirst "arXiv:".data ref
        = some (joinWith "arXiv:".data [f1]) :=
      afterFirst_pySplit "arXiv:".data (by decide) ref f0 [f1] hsp (by simp)
    rw [haf]
    rfl

/-- Witness for the amended C4 on a single-occurrence reference. -/
theorem preprint_rewrite_witness :
    adjustRecord "arXiv:2501.01234".data "New Arxiv Papers".data
      = some ("arXiv: ".data
          ++ (pySplit "arXiv:".data "arXiv:2501.01234".data).getD 1 [],
        "arXiv".data) :=
  (preprint_classification_and_rewrite "New Arxiv Papers".data
    "arXiv:2501.01234".data).2.2.1 (by decide) (by decide)

/-- Claim C10: for a record classified as a preprint, the reference rewrite
succeeds exactly when the original reference contains the literal substring
`"arXiv:"`; for inputs violating that precondition the record construction
fails (the uncaught Python IndexError, modelled as `none`). -/
theorem reference_rewrite_totality (ref jt : List Char)
    (hc : classifyPreprint jt = true) :
    ((adjustRecord ref jt).isSome = true ↔ occursB "arXiv:".data ref = true)
    ∧ (occursB "arXiv:".data ref = false → adjustRecord ref jt = none) := by
  have hiff : (adjustRecord ref jt).isSome = true
      ↔ occursB "arXiv:".data ref = true := by
    rw [adjustRecord, if_pos hc]
    cases hL : (pySplit "arXiv:".data ref).get? 1 with
    | none =>
      have hlen : (pySplit "arXiv:".data ref).length ≤ 1 := by
        rw [List.get?_eq_getElem?] at hL
        exact List.getElem?_eq_none_iff.mp hL
      have hno : occursB "arXiv:".data ref ≠ true := by
        intro h
        have := (pySplit_length_iff "arXiv:".data (by decide) ref).mpr h
        omega
      simp [hno]
    | some t =>
      have h1 : 1 < (pySplit "arXiv:".data ref).length := by
        by_contra hle
        rw [List.get?_eq_getElem?, List.getElem?_eq_none (by omega)] at hL
        exact absurd hL (by simp)
      have ho : occursB "arXiv:".data ref = true :=
        (pySplit_length_iff "arXiv:".data (by decide) ref).mp h1
      simp [ho]
  refine ⟨hiff, fun hno => ?_⟩
  cases hadj : adjustRecord ref jt with
  | none => rfl
  | some v =>
    have : occursB "arXiv:".data ref = true := hiff.mp (by rw [hadj]; rfl)
    rw [hno] at this
    exact absurd this (by simp)

/-- Witness for C10 at a concrete preprint record. -/
theorem reference_rewrite_totality_witness :
    ((adjustRecord "arXiv:2501".data "arXiv".data).isSome = true
      ↔ occursB "arXiv:".data "arXiv:2501".data = true)
    ∧ (occursB "arXiv:".data "no identifier".data = false →
        adjustRecord "no identifier".data "arXiv".data = none) :=
  ⟨(reference_rewrite_totality "arXiv:2501".data "arXiv".data (by decide)).1,
   (reference_rewrite_totality "no identifier".data "arXiv".data (by decide)).2⟩

/-! ## The two item templates of the renderer -/

/-- Claim C6 counterexample: the same record rendered as a peer-reviewed item
and as a preprint item produces different text, because the peer-reviewed
list title-cases the reference (`"Arxiv: ..."`) while the preprint list keeps
it verbatim (`"arXiv: ..."`). -/
theorem item_format_counterexample :
    peerItem "A. Smith".data
        ⟨"T".data, "A. Smith, B. Jones".data, "arXiv: 2501.01234".data,
          "arXiv".data, 2025, 0, "u".data, true⟩
      ≠ preprintItem "A. Smith".data
        ⟨"T".data, "A. Smith, B. Jones".data, "arXiv: 2501.01234".data,
          "arXiv".data, 2025, 0, "u".data, true⟩ := by decide

/-- Claim C6 (amended): both lists use the same per-item template (emphasized
title, author line with the canonical name bolded, hyperlinked reference with
year); the peer-reviewed list additionally passes the reference through
Python title-casing while the preprint list uses it verbatim, so the two
renderings agree exactly on records whose reference is unchanged by
title-casing. -/
theorem item_format_amended (name : List Char) (r : Record)
    (h : pyTitle r.reference = r.reference) :
    peerItem name r = preprintItem name r := by
  unfold peerItem preprintItem
  rw [h]

/-- Witness for the amended C6 on a title-case-invariant reference. -/
theorem item_format_witness :
    peerItem "A. Smith".data
        ⟨"T".data, "A. Smith, B. Jones".data, "Nature 1".data,
          "Nature".data, 2024, 3, "u".data, false⟩
      = preprintItem "A. Smith".data
        ⟨"T".data, "A. Smith, B. Jones".data, "Nature 1".data,
          "Nature".data, 2024, 3, "u".data, false⟩ :=
  item_format_amended "A. Smith".data
    ⟨"T".data, "A. Smith, B. Jones".data, "Nature 1".data,
      "Nature".data, 2024, 3, "u".data, false⟩ (by decide)

/-! ## The h-index computation -/

theorem hLoop_lower (s : List Nat) : ∀ k : Nat, k ≤ hLoop s k := by
  induction s with
  | nil => intro k; exact le_rfl
  | cons c cs ih =>
    intro k
    rw [hLoop]
    split
    · exact le_trans (Nat.le_succ k) (ih (k + 1))
    · exact le_rfl

theorem hLoop_upper (s : List Nat) : ∀ k : Nat, hLoop s k ≤ k + s.length := by
  induction s with
  | nil => intro k; simp [hLoop]
  | cons c cs ih =>
    intro k
    rw [hLoop]
    split
    · have := ih (k + 1)
      simp only [List.length_cons]
      omega
    · simp

/-- Every element the h-index loop passed over satisfied its check. -/
theorem hLoop_pass (s : List Nat) :
    ∀ k i : Nat, i + k < hLoop s k → i < s.length ∧ i + k + 1 ≤ s.getD i 0 := by
  induction s with
  | nil =>
    intro k i h
    rw [hLoop] at h
    omega
  | cons c cs ih =>
    intro k i h
    rw [hLoop] at h
    by_cases hc : k + 1 ≤ c
    · rw [if_pos hc] at h
      cases i with
      | zero =>
        refine ⟨by simp, ?_⟩
        rw [List.getD_cons_zero]
        omega
      | succ j =>
        have hj := ih (k + 1) j (by omega)
        refine ⟨by simp only [List.length_cons]; omega, ?_⟩
        rw [List.getD_cons_succ]
        omega
    · rw [if_neg hc] at h
      omega

/-- The element at which the h-index loop stopped failed its check. -/
theorem hLoop_stop (s : List Nat) :
    ∀ k : Nat, hLoop s k - k < s.length → s.getD (hLoop s k - k) 0 ≤ hLoop s k := by
  induction s with
  | nil =>
    intro k h
    simp at h
  | cons c cs ih =>
    intro k h
    by_cases hc : k + 1 ≤ c
    · rw [hLoop, if_pos hc] at h ⊢
      have hm := hLoop_lower cs (k + 1)
      have hmk : hLoop cs (k + 1) - k = (hLoop cs (k + 1) - (k + 1)) + 1 := by
        omega
      rw [hmk, List.getD_cons_succ]
      apply ih (k + 1)
      simp only [List.length_cons] at h
      omega
    · rw [hLoop, if_neg hc] at h ⊢
      simp only [Nat.sub_self, List.getD_cons_zero]
      omega

/-- Membership in a descending insertion. -/
theorem mem_insertDesc (x y : Nat) :
    ∀ l : List Nat, y ∈ insertDesc x l ↔ y = x ∨ y ∈ l := by
  intro l
  induction l with
  | nil => simp [insertDesc]
  | cons z zs ih =>
    rw [insertDesc]
    split
    · simp [or_comm, or_assoc, or_left_comm]
    · simp only [List.mem_cons, ih]
      tauto

/-- Descending insertion preserves the descending pairwise order. -/
theorem pairwise_insertDesc (x : Nat) :
    ∀ l : List Nat, l.Pairwise (fun a b => b ≤ a) →
      (insertDesc x l).Pairwise (fun a b => b ≤ a) := by
  intro l
  induction l with
  | nil => intro _; simp [insertDesc]
  | cons z zs ih =>
    intro hp
    rw [List.pairwise_cons] at hp
    rw [insertDesc]
    split
    · rw [List.pairwise_cons]
      constructor
      · intro a ha
        rcases List.mem_cons.mp ha with h | h
        · omega
        · have := hp.1 a h
          omega
      · rw [List.pairwise_cons]
        exact hp
    · rw [List.pairwise_cons]
      constructor
      · intro a ha
        rcases (mem_insertDesc x a zs).mp ha with h | h
        · omega
        · exact hp.1 a h
      · exact ih hp.2

/-- The descending sort is pairwise descending. -/
theorem pairwise_sortDesc :
    ∀ l : List Nat, (sortDesc l).Pairwise (fun a b => b ≤ a) := by
  intro l
  induction l with
  | nil => simp [sortDesc]
  | cons x xs ih => exact pairwise_insertDesc x (sortDesc xs) ih

/-- In a pairwise-descending list, later entries are no larger. -/
theorem desc_getD_le (s : List Nat) (hs : s.Pairwise (fun a b => b ≤ a))
    (i j : Nat) (hij : i ≤ j) (hj : j < s.length) :
    s.getD j 0 ≤ s.getD i 0 := by
  rcases Nat.lt_or_ge i j with hlt | hge
  · have hi : i < s.length := lt_trans hlt hj
    have := (List.pairwise_iff_get.mp hs) ⟨i, hi⟩ ⟨j, hj⟩ hlt
    simp only [List.get_eq_getElem] at this
    rw [List.getD_eq_getElem s 0 hj, List.getD_eq_getElem s 0 hi]
    exact this
  · have : i = j := le_antisymm hij hge
    subst this
    exact le_rfl

/-- Claim C2: the value computed by the h-index loop over the descending sort
is the largest 1-indexed rank `i` such that the `i`-th largest citation count
is at least `i`; the three examples of the specification hold. -/
theorem h_index_spec :
    (∀ cits : List Nat,
        hIndex cits ≤ (sortDesc cits).length
        ∧ (0 < hIndex cits →
            hIndex cits ≤ (sortDesc cits).getD (hIndex cits - 1) 0)
        ∧ (∀ i, i ≤ (sortDesc cits).length →
            i ≤ (sortDesc cits).getD (i - 1) 0 → i ≤ hIndex cits))
    ∧ hIndex [10, 8, 5, 4, 3] = 4 ∧ hIndex [0, 0, 0] = 0 ∧ hIndex [] = 0 := by
  refine ⟨?_, by decide, by decide, by decide⟩
  intro cits
  refine ⟨?_, ?_, ?_⟩
  · have := hLoop_upper (sortDesc cits) 0
    simpa [hIndex] using this
  · intro hpos
    have := hLoop_pass (sortDesc cits) 0 (hIndex cits - 1) (by
      simp only [hIndex] at hpos ⊢
      omega)
    simp only [Nat.add_zero] at this
    have h2 := this.2
    simp only [hIndex] at h2 ⊢
    omega
  · intro i hle hgd
    by_contra hlt
    push_neg at hlt
    have hi1 : 1 ≤ i := by
      by_contra h0
      push_neg at h0
      interval_cases i
      exact absurd hlt (by simp)
    have hstop := hLoop_stop (sortDesc cits) 0 (by
      simp only [Nat.sub_zero]
      simp only [hIndex] at hlt
      omega)
    simp only [Nat.sub_zero] at hstop
    have hmono := desc_getD_le (sortDesc cits) (pairwise_sortDesc cits)
      (hLoop (sortDesc cits) 0) (i - 1)
      (by simp only [hIndex] at hlt; omega)
      (by omega)
    simp only [hIndex] at hlt hgd ⊢
    omega

/-- Witness for C2 at the citation list of the specification. -/
theorem h_index_spec_witness :
    hIndex [10, 8, 5, 4, 3]
        ≤ (sortDesc [10, 8, 5, 4, 3]).getD (hIndex [10, 8, 5, 4, 3] - 1) 0
    ∧ 4 ≤ hIndex [10, 8, 5, 4, 3] :=
  ⟨(h_index_spec.1 [10, 8, 5, 4, 3]).2.1 (by decide),
   (h_index_spec.1 [10, 8, 5, 4, 3]).2.2 4 (by decide) (by decide)⟩

/-! ## The statistics engine -/

/-- Invariants of the statistics fold, for an arbitrary starting state. -/
theorem foldl_step_stats (name : List Char) :
    ∀ (l : List Record) (st : RState),
      (l.foldl (stepRecord name) st).peer = st.peer + l.length
      ∧ (l.foldl (stepRecord name) st).firstA
          = st.firstA
            + (l.filter (fun r => decide (firstEntry r.authors = name))).length
      ∧ (l.foldl (stepRecord name) st).lastA
          = st.lastA
            + (l.filter (fun r => decide (lastEntry r.authors = name))).length
      ∧ (l.foldl (stepRecord name) st).totalCit
          = st.totalCit + (l.map Record.citations).sum := by
  intro l
  induction l with
  | nil => intro st; simp
  | cons r rest ih =>
    intro st
    obtain ⟨ih1, ih2, ih3, ih4⟩ := ih (stepRecord name st r)
    rw [List.foldl_cons]
    refine ⟨?_, ?_, ?_, ?_⟩
    · rw [ih1]
      have : (stepRecord name st r).peer = st.peer + 1 := by
        simp [stepRecord]
      rw [this]
      simp only [List.length_cons]
      omega
    · rw [ih2]
      have hstep : (stepRecord name st r).firstA
          = st.firstA + (if decide (firstEntry r.authors = name) then 1 else 0) := by
        simp [stepRecord]
      rw [hstep, List.filter_cons]
      by_cases hf : firstEntry r.authors = name
      · simp [hf]
        omega
      · simp [hf]
    · rw [ih3]
      have hstep : (stepRecord name st r).lastA
          = st.lastA + (if decide (lastEntry r.authors = name) then 1 else 0) := by
        simp [stepRecord]
      rw [hstep, List.filter_cons]
      by_cases hf : lastEntry r.authors = name
      · simp [hf]
        omega
      · simp [hf]
    · rw [ih4]
      have : (stepRecord name st r).totalCit = st.totalCit + r.citations := by
        simp [stepRecord]
      rw [this]
      simp only [List.map_cons, List.sum_cons]
      omega

/-- Claim C3: the statistics computed by the renderer count exactly the
non-preprint records: the peer-reviewed count is their number, the
first-author count (which never exceeds it) and the last-author count tally
exact string equality of the first and last stripped comma-separated author
entry with the canonical name, and the total citations are the exact sum of
their citation fields; preprints contribute to none of these. -/
theorem statistics_engine_spec (name : List Char) (journals : List (List Char))
    (rs : List Record) :
    (runStats name journals rs).peer = (rs.filter (fun r => !r.isarxiv)).length
    ∧ (runStats name journals rs).firstA ≤ (runStats name journals rs).peer
    ∧ (runStats name journals rs).firstA
        = ((rs.filter (fun r => !r.isarxiv)).filter
            (fun r => decide (firstEntry r.authors = name))).length
    ∧ (runStats name journals rs).lastA
        = ((rs.filter (fun r => !r.isarxiv)).filter
            (fun r => decide (lastEntry r.authors = name))).length
    ∧ (runStats name journals rs).totalCit
        = ((rs.filter (fun r => !r.isarxiv)).map Record.citations).sum := by
  obtain ⟨h1, h2, h3, h4⟩ :=
    foldl_step_stats name (rs.filter (fun r => !r.isarxiv)) (initState journals)
  have hi : (initState journals).peer = 0 ∧ (initState journals).firstA = 0
      ∧ (initState journals).lastA = 0 ∧ (initState journals).totalCit = 0 := by
    simp [initState]
  refine ⟨?_, ?_, ?_, ?_, ?_⟩
  · unfold runStats
    rw [h1, hi.1]
    omega
  · unfold runStats
    rw [h2, h1, hi.1, hi.2.1]
    have := List.length_filter_le (fun r => decide (firstEntry r.authors = name))
      (rs.filter (fun r => !r.isarxiv))
    omega
  · unfold runStats
    rw [h2, hi.2.1]
    omega
  · unfold runStats
    rw [h3, hi.2.2.1]
    omega
  · unfold runStats
    rw [h4, hi.2.2.2]
    omega

/-! ## The tracked-venue breakdown -/

/-- The journal-report loop appends, in order, exactly the phrases of the
tracked venues whose count is nonzero. -/
theorem journalReport_foldl (jcs : List (List Char × JC)) :
    ∀ (journals : List (List Char)) (acc : List (List Char)),
      journals.foldl
        (fun acc j =>
          let jc := (lookupJC (pyLower j) jcs).getD ⟨0, 0, 0⟩
          if 0 < jc.count then acc ++ [phrase j jc] else acc) acc
      = acc ++ (journals.filter
            (fun j =>
              decide (0 < ((lookupJC (pyLower j) jcs).getD ⟨0, 0, 0⟩).count))).map
          (fun j => phrase j ((lookupJC (pyLower j) jcs).getD ⟨0, 0, 0⟩)) := by
  intro journals
  induction journals with
  | nil => intro acc; simp
  | cons j js ih =>
    intro acc
    rw [List.foldl_cons, List.filter_cons]
    dsimp only
    by_cases hc : 0 < ((lookupJC (pyLower j) jcs).getD ⟨0, 0, 0⟩).count
    · rw [if_pos hc, ih, if_pos (decide_eq_true hc)]
      simp [List.append_assoc]
    · rw [if_neg hc, ih, if_neg (by simp [hc])]

/-- Claim C7: a tracked venue appears in the breakdown iff its count is
nonzero; each phrase is `"<count> <VenueName>"` with the first/last-author
suffix determined by which sub-counts are nonzero; the phrases are joined
with `", "` inside the `These include` sentence; and the synthetic 3-record
scenario of the specification renders the three expected fragments. -/
theorem venue_breakdown_spec :
    (∀ (journals : List (List Char)) (jcs : List (List Char × JC)),
        journalReport journals jcs
          = (journals.filter
              (fun j =>
                decide (0 < ((lookupJC (pyLower j) jcs).getD ⟨0, 0, 0⟩).count))).map
            (fun j => phrase j ((lookupJC (pyLower j) jcs).getD ⟨0, 0, 0⟩)))
    ∧ (∀ (j : List Char) (c n m : Nat), 0 < n → 0 < m →
        phrase j ⟨c, n, m⟩
          = natLC c ++ " ".data ++ j ++ " (".data ++ natLC n
            ++ " first author, ".data ++ natLC m ++ " last author)".data)
    ∧ (∀ (j : List Char) (c n : Nat), 0 < n →
        phrase j ⟨c, n, 0⟩
          = natLC c ++ " ".data ++ j ++ " (".data ++ natLC n
            ++ " first author)".data)
    ∧ (∀ (j : List Char) (c m : Nat), 0 < m →
        phrase j ⟨c, 0, m⟩
          = natLC c ++ " ".data ++ j ++ " (".data ++ natLC m
            ++ " last author)".data)
    ∧ (∀ (j : List Char) (c : Nat), phrase j ⟨c, 0, 0⟩ = natLC c ++ " ".data ++ j)
    ∧ (∀ (peer fa la h tc : Nat) (jr : List (List Char)) (date : List Char),
        jr ≠ [] →
          ∃ pre post, statisticsText peer fa la jr h tc date
            = pre ++ ("These include ".data ++ joinWith ", ".data jr
                ++ ".\n".data) ++ post)
    ∧ occursB "3 peer-reviewed publications, 1 papers as first author".data
        scenarioStats = true
    ∧ occursB "3 Nature Photonics (1 first author)".data scenarioStats = true
    ∧ occursB "h-index: 2".data scenarioStats = true := by
  refine ⟨?_, ?_, ?_, ?_, ?_, ?_, by decide, by decide, by decide⟩
  · intro journals jcs
    have := journalReport_foldl jcs journals []
    simpa [journalReport] using this
  · intro j c n m hn hm
    simp [phrase, hn, hm]
  · intro j c n hn
    simp [phrase, hn]
  · intro j c m hm
    simp [phrase, hm]
  · intro j c
    simp [phrase]
  · intro peer fa la h tc jr date hne
    refine ⟨"\n".data ++ natLC peer ++ " peer-reviewed publications, ".data
        ++ natLC fa ++ " papers as first author, ".data ++ natLC la
        ++ " papers as last author.\n".data,
      "\\textbf\x7bh-index: ".data ++ natLC h ++ ". Citations: ".data
        ++ natLC tc ++ "\x7d (Google Scholar, as of ".data ++ date
        ++ ").".data, ?_⟩
    simp only [statisticsText, if_neg hne]
    simp [List.append_assoc]

/-- Witness for C7: the phrase of a venue with three papers, one of them
first-authored and none last-authored. -/
theorem venue_breakdown_spec_witness :
    phrase "Nature Photonics".data ⟨3, 1, 0⟩
      = natLC 3 ++ " ".data ++ "Nature Photonics".data ++ " (".data ++ natLC 1
        ++ " first author)".data :=
  venue_breakdown_spec.2.2.1 "Nature Photonics".data 3 1 (by decide)

end GS
